import Mathlib

/-!
Shallow embedding of the preprocessing pipeline of the English→French
translation notebook (`src/Eng_French.ipynb`).

The notebook's own functions (`tokenize`, `pad`, `preprocess`,
`logits_to_text`) delegate to `keras.preprocessing.text.Tokenizer` and
`keras.utils.pad_sequences`; those library semantics are embedded here
faithfully, following the Keras source that the notebook runs:

* `Tokenizer` (defaults: `lower=True`, `split=' '`, no `oov_token`,
  `num_words=None`, `filters` = the default punctuation set):
  `fit_on_texts` lowercases each text, replaces every filter character by
  a space, splits on spaces dropping empty pieces, accumulates word
  counts in first-occurrence order, then builds `word_index` by sorting
  the (word, count) pairs by count descending with The stable Python sort
  and numbering the words 1, 2, 3, … .  `texts_to_sequences` applies the
  same text normalisation and maps each word through `word_index`,
  silently skipping words that are absent (no `oov_token`).
* `pad_sequences(x, maxlen, post-padding)` (truncating defaults to
  `pre`): each row is truncated to its last `maxlen` elements (Python
  slice `s[-maxlen:]`, which is the whole row when `maxlen = 0`), then
  right-padded with the value 0 up to `maxlen`; the assignment into the
  `(n, maxlen)` result array fails when a truncated row is still longer
  than `maxlen` (possible only for `maxlen = 0`).  When the notebook's
  `pad` is called without a length it uses `max(len(s) for s in x)`,
  which raises on an empty batch.

Texts are `List Char` (Lean 4.14's `String` is a wrapper around
`List Char`; concrete examples use `String.data`).  Fallible steps
return `Option`.
-/

namespace EngFrench

/-- The default `filters` argument of `keras.preprocessing.text.Tokenizer`:
the characters `!"#$%&()*+,-./:;<=>?@[\]^_` backquote `{|}~` together with
tab and newline (codes 96, 123 and 125 are the backquote and the two
curly brackets). -/
def keras_filters : List Char :=
  ['!', '\"', '#', '$', '%', '&', '(', ')', '*', '+', ',', '-', '.', '/',
   ':', ';', '<', '=', '>', '?', '@', '[', '\\', ']', '^', '_',
   Char.ofNat 96, Char.ofNat 123, '|', Char.ofNat 125, '~', '\t', '\n']

/-- The translation table built by `text_to_word_sequence`: every filter
character becomes a space, all other characters are kept. -/
def keras_translate (c : Char) : Char :=
  if c ∈ keras_filters then ' ' else c

/-- Helper of `splitSp`: Python text splitting on spaces followed by dropping
the empty pieces, with an accumulator holding the current word reversed. -/
def splitSpAux : List Char → List Char → List (List Char)
  | [], acc => if acc = [] then [] else [acc.reverse]
  | c :: cs, acc =>
    if c = ' ' then
      if acc = [] then splitSpAux cs [] else acc.reverse :: splitSpAux cs []
    else splitSpAux cs (c :: acc)

/-- Python text splitting on spaces with empty strings removed, as performed at the end
of `keras.preprocessing.text.text_to_word_sequence`. -/
def splitSp (l : List Char) : List (List Char) :=
  splitSpAux l []

/-- Python join with a single space between consecutive words. -/
def joinSp : List (List Char) → List Char
  | [] => []
  | [w] => w
  | w :: ws => w ++ ' ' :: joinSp ws

/-- The function `keras.preprocessing.text.text_to_word_sequence` with the `Tokenizer`
defaults: lowercase, replace filter characters by spaces, split on
spaces dropping empties. -/
def text_to_word_sequence (t : List Char) : List (List Char) :=
  splitSp ((t.map Char.toLower).map keras_translate)

/-- One step of the word counting of `fit_on_texts` (`self.word_counts` is an
`OrderedDict`): a known word's count is bumped in place, an unknown word
is appended with count 1. -/
def bumpCount (counts : List (List Char × Nat)) (w : List Char) :
    List (List Char × Nat) :=
  if counts.any (fun p => p.1 = w) then
    counts.map (fun p => if p.1 = w then (p.1, p.2 + 1) else p)
  else counts ++ [(w, 1)]

/-- The composed per-character normalisation of `text_to_word_sequence`:
lowercase, then replace filter characters by spaces. -/
def normChar (c : Char) : Char :=
  keras_translate c.toLower

/-- The token stream of a corpus: the concatenation of the normalised word
sequences of its texts, in document order. -/
def tokenStream (texts : List (List Char)) : List (List Char) :=
  (texts.map text_to_word_sequence).flatten

/-- One step of collecting the distinct tokens of a stream in
first-occurrence order (the key order of the `OrderedDict` of counts). -/
def seenStep (ks : List (List Char)) (w : List Char) : List (List Char) :=
  if w ∈ ks then ks else ks ++ [w]

/-- The distinct tokens of a stream, in order of first occurrence. -/
def firstOccs (l : List (List Char)) : List (List Char) :=
  l.foldl seenStep []

/-- The `Tokenizer.word_counts` state after `fit_on_texts texts`: (word, count)
pairs in first-occurrence order. -/
def word_counts (texts : List (List Char)) : List (List Char × Nat) :=
  (tokenStream texts).foldl bumpCount []

/-- Insertion into a list sorted by count descending, after every entry of
at least the same count — the placement that the stable descending Python sort
gives a later element. -/
def insertByCount (p : List Char × Nat) :
    List (List Char × Nat) → List (List Char × Nat)
  | [] => [p]
  | q :: qs => if p.2 ≤ q.2 then q :: insertByCount p qs else p :: q :: qs

/-- The stable Python sort of the (word, count) pairs by count, descending. -/
def sortByCountDesc (l : List (List Char × Nat)) : List (List Char × Nat) :=
  l.foldl (fun acc p => insertByCount p acc) []

/-- The `Tokenizer.word_index` table after `fit_on_texts texts`: the sorted words
numbered 1, 2, 3, …; index 0 is reserved and never assigned. -/
def word_index (texts : List (List Char)) : List (List Char × Nat) :=
  (((sortByCountDesc (word_counts texts)).map Prod.fst).enumFrom 1).map
    Prod.swap

/-- Dictionary lookup by word (the first entry with the given key). -/
def lookupW (w : List Char) : List (List Char × Nat) → Option Nat
  | [] => none
  | p :: ps => if p.1 = w then some p.2 else lookupW w ps

/-- Lookup by id in the derived id→word table (the first entry with the
given id). -/
def lookupId (i : Nat) : List (List Char × Nat) → Option (List Char)
  | [] => none
  | p :: ps => if p.2 = i then some p.1 else lookupId i ps

/-- The method `Tokenizer.texts_to_sequences` on a single text: normalise, then map
each word through `word_index`, silently skipping absent words (the
`Tokenizer` has no `oov_token` and `num_words` is `None`). -/
def texts_to_sequences_one (wi : List (List Char × Nat)) (t : List Char) :
    List Nat :=
  (text_to_word_sequence t).filterMap (fun w => lookupW w wi)

/-- The notebook's `tokenize`: fit a fresh `Tokenizer` on `texts` and
return the encoded texts together with the tokenizer (represented by its
`word_index`). -/
def tokenize (texts : List (List Char)) :
    List (List Nat) × List (List Char × Nat) :=
  (texts.map (texts_to_sequences_one (word_index texts)), word_index texts)

/-- Evaluate `f` on every element, failing if any application fails. -/
def mapOpt (f : α → Option β) : List α → Option (List β)
  | [] => some []
  | a :: as =>
    match f a, mapOpt f as with
    | some b, some bs => some (b :: bs)
    | _, _ => none

/-- The Python slice of the last `m` elements: the last `m` elements, except that `m = 0`
yields the whole list (`s[-0:]` is `s[0:]`). -/
def pySliceLast (m : Nat) (s : List Nat) : List Nat :=
  if m = 0 then s else s.drop (s.length - m)

/-- One row of `keras.utils.pad_sequences(..., post-padding)` with the
default `pre-truncation`: truncate to the last `m` elements, then
right-pad with 0 to width `m`; the write into the `(n, m)` result array
fails when the truncated row is still longer than `m`. -/
def padRow (m : Nat) (s : List Nat) : Option (List Nat) :=
  if (pySliceLast m s).length ≤ m then
    some (pySliceLast m s ++
      List.replicate (m - (pySliceLast m s).length) 0)
  else none

/-- The call `keras.utils.pad_sequences(xs, maxlen=m, post-padding)`. -/
def pad_sequences_post (xs : List (List Nat)) (m : Nat) :
    Option (List (List Nat)) :=
  mapOpt (padRow m) xs

/-- Python max of the row lengths of a batch (meaningful for a non-empty
batch; the Python max raises on an empty one, which `pad` checks). -/
def listMax (l : List Nat) : Nat :=
  l.foldr Nat.max 0

/-- The notebook's `pad`: when `length` is `None` use the maximum row
length of the batch (failing on an empty batch as Python's `max` does),
then call `pad_sequences(x, maxlen=length, post-padding)`. -/
def pad (x : List (List Nat)) (len : Option Nat) : Option (List (List Nat)) :=
  match len with
  | some l => pad_sequences_post x l
  | none =>
    if x = [] then none
    else pad_sequences_post x (listMax (x.map List.length))

/-- The notebook's `preprocess`: tokenize both corpora independently, pad
each to its own maximum length, and reshape the target matrix with a
trailing singleton dimension (each id becomes a one-element row). -/
def preprocess (x y : List (List Char)) :
    Option (List (List Nat) × List (List (List Nat)) ×
            List (List Char × Nat) × List (List Char × Nat)) :=
  match pad (tokenize x).1 none, pad (tokenize y).1 none with
  | some mx, some my =>
      some (mx, my.map (fun r => r.map (fun n => [n])),
            (tokenize x).2, (tokenize y).2)
  | _, _ => none

/-- The function `np.argmax` over a single vector: the index of the first occurrence
of the largest entry. -/
def argmaxIdx : List ℚ → Nat
  | [] => 0
  | [_] => 0
  | x :: y :: ys =>
    if x < (y :: ys).getD (argmaxIdx (y :: ys)) 0 then
      argmaxIdx (y :: ys) + 1
    else 0

/-- The literal pad marker `"<PAD>"` that `logits_to_text` installs at
index 0. -/
def padTok : List Char :=
  ['<', 'P', 'A', 'D', '>']

/-- The `index_to_words` dictionary of `logits_to_text`: `word_index`
inverted, with index 0 mapped to `"<PAD>"`; a missing id is a `KeyError`. -/
def index_to_words (wi : List (List Char × Nat)) (i : Nat) :
    Option (List Char) :=
  if i = 0 then some padTok else lookupId i wi

/-- The notebook's `logits_to_text`: arg-max every position's probability
vector, map the indices through `index_to_words`, and join the words with
single spaces. -/
def logits_to_text (logits : List (List ℚ)) (wi : List (List Char × Nat)) :
    Option (List Char) :=
  (mapOpt (index_to_words wi) (logits.map argmaxIdx)).map joinSp

/-- Decoding an id sequence back to text: the id→word part of
`logits_to_text` (the `decode_vocab` of the specification). -/
def decode_ids (wi : List (List Char × Nat)) (ids : List Nat) :
    Option (List Char) :=
  (mapOpt (index_to_words wi) ids).map joinSp

/-- The raw whitespace-delimited tokens of a sentence (Python
whitespace splitting; the sentences considered here use only spaces). -/
def wsTokens (l : List Char) : List (List Char) :=
  splitSp l

/-- The position of the first occurrence of `x` in a list (the list's
length if absent). -/
def idxOf {α : Type} [DecidableEq α] (x : α) : List α → Nat
  | [] => 0
  | y :: ys => if y = x then 0 else idxOf x ys + 1

/-- The single-sentence corpus of the specification's concrete tokenizer
scenario. -/
def foxCorpus : List (List Char) :=
  ["The quick brown fox jumps over the lazy dog .".data]

/-! ### Splitting on spaces -/

theorem splitSpAux_word (w r acc : List Char) (hw : ∀ c ∈ w, c ≠ ' ') :
    splitSpAux (w ++ r) acc = splitSpAux r (w.reverse ++ acc) := by
  induction w generalizing acc with
  | nil => simp
  | cons c cs ih =>
    have hc : c ≠ ' ' := hw c (by simp)
    simp only [List.cons_append, splitSpAux, if_neg hc, List.append_eq]
    rw [ih (c :: acc) (fun d hd => hw d (by simp [hd]))]
    simp

theorem splitSpAux_space_append (l₁ l₂ : List Char) (acc : List Char) :
    splitSpAux (l₁ ++ ' ' :: l₂) acc = splitSpAux l₁ acc ++ splitSpAux l₂ [] := by
  induction l₁ generalizing acc with
  | nil => by_cases h : acc = [] <;> simp [splitSpAux, h]
  | cons c cs ih =>
    by_cases hc : c = ' '
    · subst hc
      by_cases h : acc = [] <;> simp [splitSpAux, h, ih]
    · simp [splitSpAux, hc, ih]

theorem splitSp_space_append (l₁ l₂ : List Char) :
    splitSp (l₁ ++ ' ' :: l₂) = splitSp l₁ ++ splitSp l₂ :=
  splitSpAux_space_append l₁ l₂ []

theorem splitSp_word (w : List Char) (hne : w ≠ []) (hw : ∀ c ∈ w, c ≠ ' ') :
    splitSp w = [w] := by
  have h := splitSpAux_word w [] [] hw
  simp only [List.append_nil] at h
  rw [splitSp, h, splitSpAux, if_neg (by simpa using hne)]
  simp

theorem splitSp_spaces (l : List Char) (h : ∀ c ∈ l, c = ' ') :
    splitSp l = [] := by
  induction l with
  | nil => rfl
  | cons c cs ih =>
    have hc : c = ' ' := h c (by simp)
    subst hc
    rw [splitSp, splitSpAux, if_pos rfl, if_pos rfl]
    exact ih (fun d hd => h d (by simp [hd]))

theorem splitSp_spaces_append (R B : List Char) (h : ∀ c ∈ R, c = ' ') :
    splitSp (R ++ B) = splitSp B := by
  induction R with
  | nil => simp
  | cons c cs ih =>
    have hc : c = ' ' := h c (by simp)
    subst hc
    rw [List.cons_append, splitSp, splitSpAux, if_pos rfl, if_pos rfl]
    exact ih (fun d hd => h d (by simp [hd]))

theorem splitSp_join (ws : List (List Char))
    (h : ∀ w ∈ ws, w ≠ [] ∧ ∀ c ∈ w, c ≠ ' ') :
    splitSp (joinSp ws) = ws := by
  induction ws with
  | nil => rfl
  | cons w ws ih =>
    cases ws with
    | nil =>
      exact splitSp_word w (h w (by simp)).1 (h w (by simp)).2
    | cons v vs =>
      have hjoin : joinSp (w :: v :: vs) = w ++ ' ' :: joinSp (v :: vs) := rfl
      rw [hjoin, splitSp_space_append,
        splitSp_word w (h w (by simp)).1 (h w (by simp)).2,
        ih (fun u hu => h u (by simp [hu]))]
      rfl

theorem splitSpAux_sound (l : List Char) :
    ∀ acc, (∀ c ∈ acc, c ≠ ' ') → ∀ v ∈ splitSpAux l acc,
      v ≠ [] ∧ ∀ c ∈ v, c ≠ ' ' ∧ (c ∈ l ∨ c ∈ acc) := by
  induction l with
  | nil =>
    intro acc hacc v hv
    rw [splitSpAux] at hv
    by_cases h : acc = []
    · simp [h] at hv
    · rw [if_neg h] at hv
      simp only [List.mem_singleton] at hv
      subst hv
      refine ⟨by simpa using h, fun c hc => ?_⟩
      have : c ∈ acc := by simpa using hc
      exact ⟨hacc c this, Or.inr this⟩
  | cons a as ih =>
    intro acc hacc v hv
    by_cases ha : a = ' '
    · subst ha
      rw [splitSpAux, if_pos rfl] at hv
      by_cases h : acc = []
      · rw [if_pos h] at hv
        obtain ⟨h1, h2⟩ := ih [] (by simp) v hv
        exact ⟨h1, fun c hc => ⟨(h2 c hc).1, by
          rcases (h2 c hc).2 with h3 | h3
          · exact Or.inl (by simp [h3])
          · simp at h3⟩⟩
      · rw [if_neg h] at hv
        rcases List.mem_cons.1 hv with hv | hv
        · subst hv
          refine ⟨by simpa using h, fun c hc => ?_⟩
          have : c ∈ acc := by simpa using hc
          exact ⟨hacc c this, Or.inr this⟩
        · obtain ⟨h1, h2⟩ := ih [] (by simp) v hv
          exact ⟨h1, fun c hc => ⟨(h2 c hc).1, by
            rcases (h2 c hc).2 with h3 | h3
            · exact Or.inl (by simp [h3])
            · simp at h3⟩⟩
    · rw [splitSpAux, if_neg ha] at hv
      obtain ⟨h1, h2⟩ := ih (a :: acc)
        (by intro c hc; rcases List.mem_cons.1 hc with h | h
            · exact h ▸ ha
            · exact hacc c h) v hv
      refine ⟨h1, fun c hc => ⟨(h2 c hc).1, ?_⟩⟩
      rcases (h2 c hc).2 with h3 | h3
      · exact Or.inl (by simp [h3])
      · rcases List.mem_cons.1 h3 with h4 | h4
        · exact Or.inl (by simp [h4])
        · exact Or.inr h4

theorem splitSp_sound (l : List Char) :
    ∀ v ∈ splitSp l, v ≠ [] ∧ ∀ c ∈ v, c ≠ ' ' ∧ c ∈ l := by
  intro v hv
  obtain ⟨h1, h2⟩ := splitSpAux_sound l [] (by simp) v hv
  exact ⟨h1, fun c hc => ⟨(h2 c hc).1, by
    rcases (h2 c hc).2 with h3 | h3
    · exact h3
    · simp at h3⟩⟩

/-! ### Characters: `Char.toLower` and the filter set -/

theorem char_toNat_ofNat_valid (n : Nat) (h : n.isValidChar) :
    (Char.ofNat n).toNat = n := by
  unfold Char.ofNat
  rw [dif_pos h]
  rfl

theorem toLower_def (c : Char) :
    c.toLower = if c.toNat ≥ 65 ∧ c.toNat ≤ 90 then Char.ofNat (c.toNat + 32)
      else c := rfl

theorem toLower_toLower (c : Char) : c.toLower.toLower = c.toLower := by
  by_cases h : c.toNat ≥ 65 ∧ c.toNat ≤ 90
  · have hv : (c.toNat + 32).isValidChar := Or.inl (by omega)
    have ht : (Char.ofNat (c.toNat + 32)).toNat = c.toNat + 32 :=
      char_toNat_ofNat_valid _ hv
    rw [toLower_def c, if_pos h, toLower_def, ht, if_neg (by omega)]
  · rw [toLower_def c, if_neg h, toLower_def, if_neg h]

theorem normChar_toLower (c : Char) : normChar c.toLower = normChar c := by
  rw [normChar, normChar, toLower_toLower]

theorem text_to_word_sequence_eq (t : List Char) :
    text_to_word_sequence t = splitSp (t.map normChar) := by
  rw [text_to_word_sequence, List.map_map]
  rfl

theorem text_to_word_sequence_toLower (t : List Char) :
    text_to_word_sequence (t.map Char.toLower) = text_to_word_sequence t := by
  rw [text_to_word_sequence_eq, text_to_word_sequence_eq, List.map_map]
  congr 1
  exact List.map_congr_left (fun c _ => normChar_toLower c)

theorem normChar_space : normChar ' ' = ' ' := by decide

theorem toLower_of_filter (c : Char) (h : c ∈ keras_filters) :
    c.toLower = c := by
  fin_cases h <;> decide

theorem normChar_of_filter (c : Char) (h : c ∈ keras_filters) :
    normChar c = ' ' := by
  rw [normChar, toLower_of_filter c h, keras_translate, if_pos h]

theorem normChar_not_filter (c : Char) : normChar c ∉ keras_filters := by
  rw [normChar, keras_translate]
  by_cases h : c.toLower ∈ keras_filters
  · rw [if_pos h]; decide
  · rwa [if_neg h]

/-- The words produced by `text_to_word_sequence` are non-empty and contain
neither spaces nor filter characters. -/
theorem text_to_word_sequence_sound (t : List Char) :
    ∀ v ∈ text_to_word_sequence t,
      v ≠ [] ∧ ∀ c ∈ v, c ≠ ' ' ∧ c ∉ keras_filters := by
  intro v hv
  rw [text_to_word_sequence_eq] at hv
  obtain ⟨h1, h2⟩ := splitSp_sound _ v hv
  refine ⟨h1, fun c hc => ⟨(h2 c hc).1, ?_⟩⟩
  obtain ⟨d, _, hd⟩ := List.mem_map.1 (h2 c hc).2
  exact hd ▸ normChar_not_filter d

/-! ### First occurrences and word counts -/

theorem firstOccs_append_one (l : List (List Char)) (a : List Char) :
    firstOccs (l ++ [a]) = seenStep (firstOccs l) a := by
  simp [firstOccs, List.foldl_append]

theorem firstOccs_mem (l : List (List Char)) (x : List Char) :
    x ∈ firstOccs l ↔ x ∈ l := by
  induction l using List.reverseRecOn with
  | nil => simp [firstOccs]
  | append_singleton l a ih =>
    rw [firstOccs_append_one, seenStep]
    by_cases h : a ∈ firstOccs l
    · rw [if_pos h]
      simp only [List.mem_append, List.mem_singleton, ih]
      constructor
      · exact Or.inl
      · rintro (hx | rfl)
        · exact hx
        · exact ih.1 h
    · rw [if_neg h]
      simp [ih]

theorem firstOccs_nodup (l : List (List Char)) : (firstOccs l).Nodup := by
  induction l using List.reverseRecOn with
  | nil => simp [firstOccs]
  | append_singleton l a ih =>
    rw [firstOccs_append_one, seenStep]
    by_cases h : a ∈ firstOccs l
    · rwa [if_pos h]
    · rw [if_neg h]
      refine List.Nodup.append ih (List.nodup_singleton a) ?_
      intro x hx hxa
      rw [List.mem_singleton] at hxa
      subst hxa
      exact h hx

/-! ### `idxOf`: positions of first occurrence -/

theorem idxOf_lt_length {α : Type} [DecidableEq α] {x : α} {l : List α}
    (h : x ∈ l) : idxOf x l < l.length := by
  induction l with
  | nil => simp at h
  | cons y ys ih =>
    rw [idxOf]
    by_cases hy : y = x
    · rw [if_pos hy]; simp
    · rw [if_neg hy, List.length_cons]
      have : x ∈ ys := by
        rcases List.mem_cons.1 h with hh | hh
        · exact absurd hh.symm hy
        · exact hh
      exact Nat.succ_lt_succ (ih this)

theorem idxOf_append_of_mem {α : Type} [DecidableEq α] {x : α} {l₁ : List α}
    (l₂ : List α) (h : x ∈ l₁) : idxOf x (l₁ ++ l₂) = idxOf x l₁ := by
  induction l₁ with
  | nil => simp at h
  | cons y ys ih =>
    rw [List.cons_append, idxOf, idxOf]
    by_cases hy : y = x
    · rw [if_pos hy, if_pos hy]
    · rw [if_neg hy, if_neg hy]
      have : x ∈ ys := by
        rcases List.mem_cons.1 h with hh | hh
        · exact absurd hh.symm hy
        · exact hh
      rw [ih this]

theorem idxOf_append_self {α : Type} [DecidableEq α] {x : α} {l : List α}
    (h : x ∉ l) : idxOf x (l ++ [x]) = l.length := by
  induction l with
  | nil => simp [idxOf]
  | cons y ys ih =>
    have hy : y ≠ x := fun hh => h (hh ▸ List.mem_cons_self y ys)
    rw [List.cons_append, idxOf, if_neg hy,
      ih (fun hh => h (List.mem_cons_of_mem y hh)), List.length_cons]

theorem getElem?_idxOf {α : Type} [DecidableEq α] {x : α} {l : List α}
    (h : x ∈ l) : l[idxOf x l]? = some x := by
  induction l with
  | nil => simp at h
  | cons y ys ih =>
    rw [idxOf]
    by_cases hy : y = x
    · rw [if_pos hy]
      simp [hy]
    · rw [if_neg hy]
      have : x ∈ ys := by
        rcases List.mem_cons.1 h with hh | hh
        · exact absurd hh.symm hy
        · exact hh
      simpa using ih this

theorem idxOf_of_getElem? {α : Type} [DecidableEq α] {l : List α}
    (hl : l.Nodup) : ∀ {n : Nat} {x : α}, l[n]? = some x → idxOf x l = n := by
  induction l with
  | nil => intro n x h; simp at h
  | cons y ys ih =>
    intro n x h
    rcases List.nodup_cons.1 hl with ⟨hy, hys⟩
    cases n with
    | zero =>
      simp only [List.getElem?_cons_zero] at h
      injection h with h
      rw [idxOf, if_pos h]
    | succ m =>
      simp only [List.getElem?_cons_succ] at h
      have hxm : x ∈ ys := List.getElem?_mem h
      have hyx : y ≠ x := fun hh => hy (hh ▸ hxm)
      rw [idxOf, if_neg hyx, ih hys h]

theorem idxOf_inj {α : Type} [DecidableEq α] {l : List α} {x y : α}
    (hx : x ∈ l) (hy : y ∈ l) (h : idxOf x l = idxOf y l) : x = y := by
  have h1 := getElem?_idxOf hx
  have h2 := getElem?_idxOf hy
  rw [h] at h1
  rw [h1] at h2
  injection h2

theorem idxOf_map {α β : Type} [DecidableEq α] [DecidableEq β] {f : α → β}
    (hf : ∀ a b, f a = f b → a = b) (l : List α) (x : α) :
    idxOf (f x) (l.map f) = idxOf x l := by
  induction l with
  | nil => rfl
  | cons y ys ih =>
    rw [List.map_cons, idxOf, idxOf]
    by_cases hy : y = x
    · rw [if_pos hy, if_pos (by rw [hy])]
    · rw [if_neg hy, if_neg (fun hh => hy (hf y x hh)), ih]

/-- The list `firstOccs` lists the distinct tokens in order of first occurrence:
along the result, the positions of first occurrence in the stream are
strictly increasing. -/
theorem firstOccs_pairwise (l : List (List Char)) :
    List.Pairwise (fun x y => idxOf x l < idxOf y l) (firstOccs l) := by
  induction l using List.reverseRecOn with
  | nil => simp [firstOccs]
  | append_singleton l a ih =>
    rw [firstOccs_append_one, seenStep]
    have htrans : ∀ {x y : List Char}, x ∈ firstOccs l → y ∈ firstOccs l →
        idxOf x l < idxOf y l →
        idxOf x (l ++ [a]) < idxOf y (l ++ [a]) := by
      intro x y hx hy hxy
      rw [idxOf_append_of_mem [a] ((firstOccs_mem l x).1 hx),
        idxOf_append_of_mem [a] ((firstOccs_mem l y).1 hy)]
      exact hxy
    by_cases h : a ∈ firstOccs l
    · rw [if_pos h]
      exact ih.imp_of_mem (fun hx hy hxy => htrans hx hy hxy)
    · rw [if_neg h]
      rw [List.pairwise_append]
      refine ⟨ih.imp_of_mem (fun hx hy hxy => htrans hx hy hxy),
        List.pairwise_singleton _ _, ?_⟩
      intro x hx b hb
      rw [List.mem_singleton] at hb
      rw [hb]
      have hxl : x ∈ l := (firstOccs_mem l x).1 hx
      have hal : a ∉ l := fun hal => h ((firstOccs_mem l a).2 hal)
      rw [idxOf_append_of_mem [a] hxl, idxOf_append_self hal]
      exact idxOf_lt_length hxl

/-- The count accumulation of `fit_on_texts`: the counts dictionary lists the
distinct words of the stream in first-occurrence order, each with its
number of occurrences. -/
theorem foldl_bumpCount_eq (l : List (List Char)) :
    l.foldl bumpCount [] = (firstOccs l).map (fun w => (w, l.count w)) := by
  induction l using List.reverseRecOn with
  | nil => rfl
  | append_singleton l a ih =>
    rw [List.foldl_append, List.foldl_cons, List.foldl_nil, ih,
      firstOccs_append_one, seenStep]
    by_cases h : a ∈ l
    · have hfo : a ∈ firstOccs l := (firstOccs_mem l a).2 h
      rw [if_pos hfo, bumpCount, if_pos]
      · rw [List.map_map]
        refine List.map_congr_left (fun w hw => ?_)
        simp only [Function.comp]
        by_cases hwa : w = a
        · subst hwa
          rw [if_pos rfl]
          have h1 : List.count w (l ++ [w]) = List.count w l + 1 := by
            rw [List.count_append]
            simp
          rw [h1]
        · rw [if_neg (by simpa using hwa)]
          have hz : List.count w [a] = 0 := by
            rw [List.count_eq_zero]
            simpa using fun hh : w = a => hwa hh
          rw [List.count_append, hz]
          rfl
      · refine List.any_eq_true.2 ⟨(a, l.count a), List.mem_map.2 ⟨a, hfo, rfl⟩, ?_⟩
        simp
    · have hfo : a ∉ firstOccs l := fun hh => h ((firstOccs_mem l a).1 hh)
      rw [if_neg hfo, bumpCount, if_neg]
      · rw [List.map_append]
        congr 1
        · refine List.map_congr_left (fun w hw => ?_)
          have hwa : w ≠ a := fun hh => hfo (hh ▸ hw)
          have hz : List.count w [a] = 0 := by
            rw [List.count_eq_zero]
            simpa using hwa
          rw [List.count_append, hz]
          rfl
        · have hz : List.count a l = 0 := List.count_eq_zero.2 h
          have h1 : List.count a (l ++ [a]) = 1 := by
            rw [List.count_append, hz]
            simp
          rw [List.map_singleton, h1]
      · refine fun hany => ?_
        obtain ⟨p, hp, hpa⟩ := List.any_eq_true.1 hany
        obtain ⟨w, hw, rfl⟩ := List.mem_map.1 hp
        have hwa : w = a := by simpa using hpa
        exact hfo (hwa ▸ hw)

theorem word_counts_eq (texts : List (List Char)) :
    word_counts texts =
      (firstOccs (tokenStream texts)).map
        (fun w => (w, (tokenStream texts).count w)) :=
  foldl_bumpCount_eq (tokenStream texts)

theorem word_counts_keys (texts : List (List Char)) :
    (word_counts texts).map Prod.fst = firstOccs (tokenStream texts) := by
  rw [word_counts_eq, List.map_map]
  exact List.map_congr_left (fun w _ => rfl) |>.trans (List.map_id _)

/-! ### Lookup lemmas -/

theorem lookupW_eq_none (w : List Char) (l : List (List Char × Nat)) :
    lookupW w l = none ↔ w ∉ l.map Prod.fst := by
  induction l with
  | nil => simp [lookupW]
  | cons p ps ih =>
    rw [lookupW, List.map_cons]
    by_cases h : p.1 = w
    · simp [h]
    · rw [if_neg h, ih]
      simp only [List.mem_cons]
      constructor
      · intro hnot hmem
        rcases hmem with hh | hh
        · exact h hh.symm
        · exact hnot hh
      · intro hnot hmem
        exact hnot (Or.inr hmem)

theorem lookupW_mem {w : List Char} {l : List (List Char × Nat)} {i : Nat}
    (h : lookupW w l = some i) : (w, i) ∈ l := by
  induction l with
  | nil => simp [lookupW] at h
  | cons p ps ih =>
    rw [lookupW] at h
    by_cases hp : p.1 = w
    · rw [if_pos hp] at h
      injection h with h
      exact List.mem_cons.2 (Or.inl (by rw [← hp, ← h]))
    · rw [if_neg hp] at h
      exact List.mem_cons_of_mem p (ih h)

theorem lookup_swap {l : List (List Char × Nat)}
    (hsnd : (l.map Prod.snd).Nodup) {w : List Char} {i : Nat}
    (h : lookupW w l = some i) : lookupId i l = some w := by
  induction l with
  | nil => simp [lookupW] at h
  | cons p ps ih =>
    rw [lookupW] at h
    rw [lookupId]
    by_cases hp : p.1 = w
    · rw [if_pos hp] at h
      cases h
      rw [if_pos rfl, hp]
    · rw [if_neg hp] at h
      have hmem : (w, i) ∈ ps := lookupW_mem h
      have hips : i ∈ ps.map Prod.snd := List.mem_map.2 ⟨(w, i), hmem, rfl⟩
      have hpi : p.2 ≠ i := by
        rw [List.map_cons, List.nodup_cons] at hsnd
        exact fun hh => hsnd.1 (hh ▸ hips)
      rw [if_neg hpi]
      exact ih (by rw [List.map_cons, List.nodup_cons] at hsnd; exact hsnd.2) h

theorem lookupW_enumFrom_swap (ks : List (List Char)) (hk : ks.Nodup) :
    ∀ (n : Nat) (w : List Char) (i : Nat),
      lookupW w ((ks.enumFrom n).map Prod.swap) = some i ↔
        n ≤ i ∧ ks[i - n]? = some w := by
  induction ks with
  | nil =>
    intro n w i
    simp [lookupW]
  | cons k ks ih =>
    intro n w i
    rw [List.enumFrom_cons, List.map_cons, Prod.swap_prod_mk]
    rw [lookupW]
    rcases List.nodup_cons.1 hk with ⟨hknot, hknd⟩
    by_cases hkw : k = w
    · subst hkw
      rw [if_pos rfl]
      constructor
      · rintro h
        cases h
        exact ⟨Nat.le_refl n, by simp⟩
      · rintro ⟨hni, hget⟩
        rcases Nat.lt_or_ge (i - n) 1 with hlt | hge
        · have : i - n = 0 := by omega
          have : i = n := by omega
          simp [this]
        · exfalso
          obtain ⟨m, hm⟩ : ∃ m, i - n = m + 1 := ⟨i - n - 1, by omega⟩
          rw [hm] at hget
          simp only [List.getElem?_cons_succ] at hget
          exact hknot (List.getElem?_mem hget)
    · rw [if_neg hkw]
      rw [ih hknd (n + 1) w i]
      constructor
      · rintro ⟨hni, hget⟩
        refine ⟨by omega, ?_⟩
        have hin : i - n = (i - (n + 1)) + 1 := by omega
        rw [hin]
        simpa using hget
      · rintro ⟨hni, hget⟩
        have hne : i ≠ n := by
          intro hh
          subst hh
          simp at hget
          exact hkw hget
        refine ⟨by omega, ?_⟩
        have hin : i - n = (i - (n + 1)) + 1 := by omega
        rw [hin] at hget
        simpa using hget

/-! ### Stable sorting by count -/

theorem insertByCount_perm (p : List Char × Nat) (l : List (List Char × Nat)) :
    (insertByCount p l).Perm (p :: l) := by
  induction l with
  | nil => exact List.Perm.refl _
  | cons q qs ih =>
    rw [insertByCount]
    by_cases h : p.2 ≤ q.2
    · rw [if_pos h]
      exact (List.Perm.cons q ih).trans (List.Perm.swap p q qs)
    · rw [if_neg h]

theorem sortFold_perm (l : List (List Char × Nat)) :
    ∀ acc, (l.foldl (fun acc p => insertByCount p acc) acc).Perm (acc ++ l) := by
  induction l with
  | nil => intro acc; simp
  | cons p ps ih =>
    intro acc
    rw [List.foldl_cons]
    refine (ih (insertByCount p acc)).trans ?_
    refine (List.Perm.append_right ps (insertByCount_perm p acc)).trans ?_
    exact List.perm_middle.symm

theorem sortByCountDesc_perm (l : List (List Char × Nat)) :
    (sortByCountDesc l).Perm l := by
  simpa using sortFold_perm l []

theorem mem_insertByCount {p x : List Char × Nat}
    {l : List (List Char × Nat)} :
    x ∈ insertByCount p l ↔ x = p ∨ x ∈ l := by
  have h := (insertByCount_perm p l).mem_iff (a := x)
  simpa using h

theorem insertByCount_pairwise {p : List Char × Nat}
    {l : List (List Char × Nat)}
    (h : List.Pairwise (fun a b => b.2 ≤ a.2) l) :
    List.Pairwise (fun a b => b.2 ≤ a.2) (insertByCount p l) := by
  induction l with
  | nil => simp [insertByCount]
  | cons q qs ih =>
    rw [insertByCount]
    rcases List.pairwise_cons.1 h with ⟨hq, hqs⟩
    by_cases hpq : p.2 ≤ q.2
    · rw [if_pos hpq]
      refine List.pairwise_cons.2 ⟨?_, ih hqs⟩
      intro b hb
      rcases mem_insertByCount.1 hb with rfl | hb
      · exact hpq
      · exact hq b hb
    · rw [if_neg hpq]
      refine List.pairwise_cons.2 ⟨?_, h⟩
      intro b hb
      rcases List.mem_cons.1 hb with rfl | hb
      · omega
      · exact Nat.le_trans (hq b hb) (by omega)

theorem sortFold_pairwise (l : List (List Char × Nat)) :
    ∀ acc, List.Pairwise (fun a b => b.2 ≤ a.2) acc →
      List.Pairwise (fun a b => b.2 ≤ a.2)
        (l.foldl (fun acc p => insertByCount p acc) acc) := by
  induction l with
  | nil => intro acc h; exact h
  | cons p ps ih =>
    intro acc h
    rw [List.foldl_cons]
    exact ih _ (insertByCount_pairwise h)

theorem sortByCountDesc_pairwise (l : List (List Char × Nat)) :
    List.Pairwise (fun a b => b.2 ≤ a.2) (sortByCountDesc l) :=
  sortFold_pairwise l [] List.Pairwise.nil

theorem insertByCount_filter (c : Nat) {p : List Char × Nat}
    {l : List (List Char × Nat)}
    (h : List.Pairwise (fun a b => b.2 ≤ a.2) l) :
    (insertByCount p l).filter (fun q => q.2 == c) =
      l.filter (fun q => q.2 == c) ++ if p.2 = c then [p] else [] := by
  induction l with
  | nil =>
    rw [insertByCount]
    by_cases hc : p.2 = c <;> simp [List.filter_cons, hc]
  | cons q qs ih =>
    rcases List.pairwise_cons.1 h with ⟨hq, hqs⟩
    rw [insertByCount]
    by_cases hpq : p.2 ≤ q.2
    · rw [if_pos hpq]
      by_cases hqc : q.2 = c <;>
        simp [List.filter_cons, hqc, ih hqs]
    · rw [if_neg hpq]
      by_cases hc : p.2 = c
      · have hnil : (q :: qs).filter (fun q => q.2 == c) = [] := by
          rw [List.filter_eq_nil_iff]
          intro b hb
          rcases List.mem_cons.1 hb with rfl | hb
          · simp
            omega
          · have hbq := hq b hb
            simp
            omega
        simp [List.filter_cons, hc, hnil]
      · simp [List.filter_cons, hc]

theorem sortFold_filter (c : Nat) (l : List (List Char × Nat)) :
    ∀ acc, List.Pairwise (fun a b => b.2 ≤ a.2) acc →
      (l.foldl (fun acc p => insertByCount p acc) acc).filter
          (fun q => q.2 == c) =
        acc.filter (fun q => q.2 == c) ++ l.filter (fun q => q.2 == c) := by
  induction l with
  | nil => intro acc h; simp
  | cons p ps ih =>
    intro acc h
    rw [List.foldl_cons, ih _ (insertByCount_pairwise h),
      insertByCount_filter c h]
    by_cases hc : p.2 = c <;> simp [List.filter_cons, hc, List.append_assoc]

/-- Stability of the sort: within every count class, the sorted order is
the original (first-occurrence) order of the counts dictionary. -/
theorem sortByCountDesc_filter (l : List (List Char × Nat)) (c : Nat) :
    (sortByCountDesc l).filter (fun q => q.2 == c) =
      l.filter (fun q => q.2 == c) := by
  simpa using sortFold_filter c l [] List.Pairwise.nil

/-! ### Structure of `word_index` -/

theorem word_index_keys (texts : List (List Char)) :
    (word_index texts).map Prod.fst =
      (sortByCountDesc (word_counts texts)).map Prod.fst := by
  rw [word_index, List.map_map]
  exact List.enumFrom_map_snd 1 _

theorem word_index_ids (texts : List (List Char)) :
    (word_index texts).map Prod.snd =
      List.range' 1 (sortByCountDesc (word_counts texts)).length := by
  rw [word_index, List.map_map]
  show List.map Prod.fst
      (List.enumFrom 1 ((sortByCountDesc (word_counts texts)).map Prod.fst)) =
    _
  rw [List.enumFrom_map_fst, List.length_map]

theorem word_index_keys_nodup (texts : List (List Char)) :
    ((word_index texts).map Prod.fst).Nodup := by
  rw [word_index_keys]
  have hperm := (sortByCountDesc_perm (word_counts texts)).map Prod.fst
  rw [hperm.nodup_iff, word_counts_keys]
  exact firstOccs_nodup _

theorem word_index_ids_nodup (texts : List (List Char)) :
    ((word_index texts).map Prod.snd).Nodup := by
  rw [word_index_ids]
  exact List.nodup_range' 1 _

theorem lookupW_word_index (texts : List (List Char)) (w : List Char)
    (i : Nat) :
    lookupW w (word_index texts) = some i ↔
      1 ≤ i ∧
        ((sortByCountDesc (word_counts texts)).map Prod.fst)[i - 1]? =
          some w := by
  have hnd : ((sortByCountDesc (word_counts texts)).map Prod.fst).Nodup := by
    have hperm := (sortByCountDesc_perm (word_counts texts)).map Prod.fst
    rw [hperm.nodup_iff, word_counts_keys]
    exact firstOccs_nodup _
  exact lookupW_enumFrom_swap _ hnd 1 w i

theorem lookupW_word_index_pos {texts : List (List Char)} {w : List Char}
    {i : Nat} (h : lookupW w (word_index texts) = some i) : 1 ≤ i :=
  ((lookupW_word_index texts w i).1 h).1

/-- Every entry of the sorted counts list carries the stream count of its
word. -/
theorem mem_sortByCountDesc_count {texts : List (List Char)}
    {p : List Char × Nat} (hp : p ∈ sortByCountDesc (word_counts texts)) :
    p.2 = (tokenStream texts).count p.1 := by
  have hmem := (sortByCountDesc_perm (word_counts texts)).mem_iff.1 hp
  rw [word_counts_eq] at hmem
  obtain ⟨w, _, rfl⟩ := List.mem_map.1 hmem
  rfl

theorem word_index_keys_mem_stream {texts : List (List Char)}
    {w : List Char} (hw : w ∈ (word_index texts).map Prod.fst) :
    w ∈ tokenStream texts := by
  rw [word_index_keys] at hw
  have hmem := ((sortByCountDesc_perm (word_counts texts)).map Prod.fst).mem_iff.1 hw
  rw [word_counts_keys] at hmem
  exact (firstOccs_mem _ _).1 hmem

theorem tokenStream_sound {texts : List (List Char)} {w : List Char}
    (hw : w ∈ tokenStream texts) :
    w ≠ [] ∧ ∀ c ∈ w, c ≠ ' ' ∧ c ∉ keras_filters := by
  rw [tokenStream] at hw
  obtain ⟨s, hs, hws⟩ := List.mem_flatten.1 hw
  obtain ⟨t, _, rfl⟩ := List.mem_map.1 hs
  exact text_to_word_sequence_sound t w hws

/-! ### Relative order and sublists -/

theorem sublist_idxOf_lt {α : Type} [DecidableEq α] {s l : List α}
    (hs : s.Sublist l) (hl : l.Nodup) :
    ∀ {x y : α}, x ∈ s → y ∈ s → idxOf x s < idxOf y s →
      idxOf x l < idxOf y l := by
  induction hs with
  | slnil =>
    intro x y hx _ _
    simp at hx
  | cons a hsub ih =>
    rename_i s1 l1
    intro x y hx hy hxy
    rcases List.nodup_cons.1 hl with ⟨ha, hl2⟩
    have hxl : x ∈ l1 := List.Sublist.mem hx hsub
    have hyl : y ∈ l1 := List.Sublist.mem hy hsub
    have hxa : a ≠ x := fun hh => ha (hh ▸ hxl)
    have hya : a ≠ y := fun hh => ha (hh ▸ hyl)
    rw [idxOf, if_neg hxa, idxOf, if_neg hya]
    exact Nat.succ_lt_succ (ih hl2 hx hy hxy)
  | cons₂ a hsub ih =>
    rename_i s1 l1
    intro x y hx hy hxy
    rcases List.nodup_cons.1 hl with ⟨ha, hl2⟩
    by_cases hya : a = y
    · subst hya
      have h0 : idxOf a (a :: s1) = 0 := by
        rw [idxOf, if_pos rfl]
      rw [h0] at hxy
      exact absurd hxy (Nat.not_lt_zero _)
    · by_cases hxa : a = x
      · subst hxa
        have h0 : idxOf a (a :: l1) = 0 := by
          rw [idxOf, if_pos rfl]
        rw [h0, idxOf, if_neg hya]
        exact Nat.succ_pos _
      · have hxs : x ∈ s1 := by
          rcases List.mem_cons.1 hx with hh | hh
          · exact absurd hh.symm hxa
          · exact hh
        have hys : y ∈ s1 := by
          rcases List.mem_cons.1 hy with hh | hh
          · exact absurd hh.symm hya
          · exact hh
        rw [idxOf, if_neg hxa, idxOf, if_neg hya] at hxy
        rw [idxOf, if_neg hxa, idxOf, if_neg hya]
        exact Nat.succ_lt_succ (ih hl2 hxs hys (Nat.lt_of_succ_lt_succ hxy))

theorem filter_idxOf_lt {α : Type} [DecidableEq α] {l : List α}
    (hl : l.Nodup) (P : α → Bool) {x y : α}
    (hx : x ∈ l.filter P) (hy : y ∈ l.filter P)
    (hxy : idxOf x l < idxOf y l) :
    idxOf x (l.filter P) < idxOf y (l.filter P) := by
  have hne : x ≠ y := fun hh => by subst hh; exact Nat.lt_irrefl _ hxy
  rcases Nat.lt_trichotomy (idxOf x (l.filter P)) (idxOf y (l.filter P))
    with h | h | h
  · exact h
  · exact absurd (idxOf_inj hx hy h) hne
  · have := sublist_idxOf_lt (List.filter_sublist l) hl hy hx h
    omega

/-! ### Padding lemmas -/

theorem padRow_of_le {m : Nat} {s : List Nat} (h : s.length ≤ m) :
    padRow m s = some (s ++ List.replicate (m - s.length) 0) := by
  by_cases hm : m = 0
  · subst hm
    have hs : s = [] := List.eq_nil_of_length_eq_zero (Nat.le_zero.1 h)
    subst hs
    rfl
  · have hd : pySliceLast m s = s := by
      rw [pySliceLast, if_neg hm]
      have h0 : s.length - m = 0 := by omega
      rw [h0, List.drop_zero]
    rw [padRow, hd, if_pos h]

theorem padRow_pos {m : Nat} (hm : 1 ≤ m) (s : List Nat) :
    padRow m s = some (s.drop (s.length - m) ++
      List.replicate (m - min s.length m) 0) := by
  have hd : pySliceLast m s = s.drop (s.length - m) := by
    rw [pySliceLast, if_neg (by omega)]
  have hlen : (s.drop (s.length - m)).length = min s.length m := by
    rw [List.length_drop]
    omega
  rw [padRow, hd, hlen, if_pos (by omega)]

theorem pySliceLast_length {m : Nat} {s : List Nat}
    (h : (pySliceLast m s).length ≤ m) :
    (pySliceLast m s).length = min s.length m := by
  rw [pySliceLast] at h ⊢
  by_cases hm : m = 0
  · rw [if_pos hm] at h ⊢
    omega
  · rw [if_neg hm] at h ⊢
    rw [List.length_drop] at h ⊢
    omega

theorem padRow_some_shape {m : Nat} {s r : List Nat}
    (h : padRow m s = some r) :
    r.length = m ∧ ∀ k, min s.length m ≤ k → k < m → r.getD k 1 = 0 := by
  rw [padRow] at h
  by_cases hle : (pySliceLast m s).length ≤ m
  · rw [if_pos hle] at h
    injection h with h
    subst h
    have hlen := pySliceLast_length hle
    constructor
    · rw [List.length_append, List.length_replicate]
      omega
    · intro k hk1 hk2
      have htl : (pySliceLast m s).length ≤ k := by omega
      rw [List.getD_append_right _ _ _ _ htl]
      have hidx : k - (pySliceLast m s).length <
          m - (pySliceLast m s).length := by omega
      rw [List.getD_eq_getElem?_getD, List.getElem?_replicate, if_pos hidx]
      rfl
  · rw [if_neg hle] at h
    cases h

theorem mapOpt_eq_some_map {α β : Type} (f : α → Option β) (g : α → β)
    (l : List α) (h : ∀ a ∈ l, f a = some (g a)) :
    mapOpt f l = some (l.map g) := by
  induction l with
  | nil => rfl
  | cons a as ih =>
    rw [mapOpt, h a (List.mem_cons_self a as),
      ih (fun b hb => h b (List.mem_cons_of_mem a hb)), List.map_cons]

theorem mapOpt_some_shape {α β : Type} {f : α → Option β} :
    ∀ {l : List α} {res : List β}, mapOpt f l = some res →
      res.length = l.length ∧
        ∀ (j : Nat) (a : α), l[j]? = some a →
          ∃ b, res[j]? = some b ∧ f a = some b := by
  intro l
  induction l with
  | nil =>
    intro res h
    rw [mapOpt] at h
    injection h with h
    subst h
    refine ⟨rfl, ?_⟩
    intro j a ha
    simp at ha
  | cons a as ih =>
    intro res h
    rw [mapOpt] at h
    cases hfa : f a with
    | none => rw [hfa] at h; cases h
    | some b =>
      rw [hfa] at h
      cases hrest : mapOpt f as with
      | none => rw [hrest] at h; cases h
      | some bs =>
        rw [hrest] at h
        injection h with h
        subst h
        obtain ⟨hlen, hpt⟩ := ih hrest
        constructor
        · rw [List.length_cons, List.length_cons, hlen]
        intro j x hx
        cases j with
        | zero =>
          simp only [List.getElem?_cons_zero] at hx ⊢
          injection hx with hx
          subst hx
          exact ⟨b, rfl, hfa⟩
        | succ n =>
          simp only [List.getElem?_cons_succ] at hx ⊢
          exact hpt n x hx

theorem listMax_ge {l : List Nat} {a : Nat} (h : a ∈ l) : a ≤ listMax l := by
  induction l with
  | nil => simp at h
  | cons b bs ih =>
    rw [listMax, List.foldr_cons]
    rcases List.mem_cons.1 h with rfl | h
    · exact Nat.le_max_left _ _
    · exact Nat.le_trans (ih h) (Nat.le_max_right _ _)

theorem listMax_mem {l : List Nat} (h : l ≠ []) : listMax l ∈ l := by
  induction l with
  | nil => exact absurd rfl h
  | cons b bs ih =>
    rw [listMax, List.foldr_cons]
    by_cases hb : List.foldr Nat.max 0 bs ≤ b
    · have hmax : b.max (List.foldr Nat.max 0 bs) = b := Nat.max_eq_left hb
      rw [hmax]
      exact List.mem_cons_self _ _
    · have hmax : b.max (List.foldr Nat.max 0 bs) =
          List.foldr Nat.max 0 bs := Nat.max_eq_right (by omega)
      rw [hmax]
      have hbs : bs ≠ [] := by
        intro hh
        subst hh
        exact hb (Nat.zero_le b)
      exact List.mem_cons_of_mem _ (ih hbs)

/-! ### Arg-max -/

theorem argmaxIdx_spec (v : List ℚ) (hv : v ≠ []) :
    argmaxIdx v < v.length ∧
      (∀ k, k < v.length → v.getD k 0 ≤ v.getD (argmaxIdx v) 0) ∧
      (∀ k, k < argmaxIdx v → v.getD k 0 < v.getD (argmaxIdx v) 0) := by
  induction v with
  | nil => exact absurd rfl hv
  | cons x xs ih =>
    cases xs with
    | nil =>
      refine ⟨by simp [argmaxIdx], ?_, ?_⟩
      · intro k hk
        have hk0 : k = 0 := by simpa using Nat.lt_one_iff.1 (by simpa using hk)
        subst hk0
        exact le_refl _
      · intro k hk
        simp [argmaxIdx] at hk
    | cons y ys =>
      obtain ⟨ih1, ih2, ih3⟩ := ih (by simp)
      rw [argmaxIdx]
      by_cases hx : x < (y :: ys).getD (argmaxIdx (y :: ys)) 0
      · rw [if_pos hx]
        refine ⟨by simpa using Nat.succ_lt_succ ih1, ?_, ?_⟩
        · intro k hk
          cases k with
          | zero =>
            rw [List.getD_cons_zero, List.getD_cons_succ]
            exact le_of_lt hx
          | succ n =>
            rw [List.getD_cons_succ, List.getD_cons_succ]
            exact ih2 n (by simpa using Nat.lt_of_succ_lt_succ hk)
        · intro k hk
          cases k with
          | zero =>
            rw [List.getD_cons_zero, List.getD_cons_succ]
            exact hx
          | succ n =>
            rw [List.getD_cons_succ, List.getD_cons_succ]
            exact ih3 n (Nat.lt_of_succ_lt_succ hk)
      · rw [if_neg hx]
        refine ⟨Nat.succ_pos _, ?_, ?_⟩
        · intro k hk
          cases k with
          | zero => exact le_refl _
          | succ n =>
            rw [List.getD_cons_succ, List.getD_cons_zero]
            have hle := ih2 n (by simpa using Nat.lt_of_succ_lt_succ hk)
            have hxe : (y :: ys).getD (argmaxIdx (y :: ys)) 0 ≤ x := by
              exact le_of_not_lt hx
            exact le_trans hle hxe
        · intro k hk
          exact absurd hk (Nat.not_lt_zero k)

/-! ### Encoding and decoding -/

theorem normChar_fixed {c : Char} (h1 : c ∉ keras_filters)
    (h2 : c.toLower = c) : normChar c = c := by
  rw [normChar, h2, keras_translate, if_neg h1]

theorem map_normChar_joinSp (ws : List (List Char))
    (h : ∀ w ∈ ws, ∀ c ∈ w, normChar c = c) :
    (joinSp ws).map normChar = joinSp ws := by
  induction ws with
  | nil => rfl
  | cons w vs ih =>
    cases vs with
    | nil =>
      have hmap : w.map normChar = w.map id :=
        List.map_congr_left (fun c hc => h w (by simp) c hc)
      show w.map normChar = w
      rw [hmap, List.map_id]
    | cons v vs2 =>
      have hjoin : joinSp (w :: v :: vs2) = w ++ ' ' :: joinSp (v :: vs2) :=
        rfl
      rw [hjoin, List.map_append, List.map_cons, normChar_space,
        ih (fun u hu => h u (by simp [hu]))]
      have hmap : w.map normChar = w.map id :=
        List.map_congr_left (fun c hc => h w (by simp) c hc)
      rw [hmap, List.map_id]

theorem text_to_word_sequence_join (ws : List (List Char))
    (h : ∀ w ∈ ws, w ≠ [] ∧ ∀ c ∈ w, c ≠ ' ' ∧ normChar c = c) :
    text_to_word_sequence (joinSp ws) = ws := by
  rw [text_to_word_sequence_eq,
    map_normChar_joinSp ws (fun w hw c hc => ((h w hw).2 c hc).2)]
  exact splitSp_join ws
    (fun w hw => ⟨(h w hw).1, fun c hc => ((h w hw).2 c hc).1⟩)

/-- Decoding inverts encoding when every token is in the vocabulary and
the id table has distinct, positive ids. -/
theorem decode_encode_core (wi : List (List Char × Nat))
    (hsnd : (wi.map Prod.snd).Nodup)
    (hpos : ∀ w i, lookupW w wi = some i → 1 ≤ i) :
    ∀ ws : List (List Char), (∀ w ∈ ws, (lookupW w wi).isSome) →
      mapOpt (index_to_words wi) (ws.filterMap (fun w => lookupW w wi)) =
        some ws := by
  intro ws
  induction ws with
  | nil => intro _; rfl
  | cons w vs ih =>
    intro h
    obtain ⟨i, hi⟩ := Option.isSome_iff_exists.1 (h w (by simp))
    have hfm : (w :: vs).filterMap (fun u => lookupW u wi) =
        i :: vs.filterMap (fun u => lookupW u wi) := by
      rw [List.filterMap_cons, hi]
    have h0 : index_to_words wi i = some w := by
      rw [index_to_words, if_neg (by have := hpos w i hi; omega)]
      exact lookup_swap hsnd hi
    rw [hfm, mapOpt, h0, ih (fun u hu => h u (by simp [hu]))]

/-- The encoder `texts_to_sequences` keeps exactly the in-vocabulary tokens, in order,
each mapped to its id; out-of-vocabulary tokens are silently dropped. -/
theorem texts_to_sequences_one_eq (wi : List (List Char × Nat))
    (t : List Char) :
    texts_to_sequences_one wi t =
      ((text_to_word_sequence t).filter
          (fun w => (lookupW w wi).isSome)).map
        (fun w => (lookupW w wi).getD 0) := by
  rw [texts_to_sequences_one]
  generalize text_to_word_sequence t = ws
  induction ws with
  | nil => rfl
  | cons w vs ih =>
    rw [List.filterMap_cons, List.filter_cons]
    cases hw : lookupW w wi with
    | none => simp [hw, ih]
    | some i => simp [hw, ih]

theorem mapOpt_forall₂ {α β : Type} {f : α → Option β} {l : List α}
    {ts : List β} (h : List.Forall₂ (fun a b => f a = some b) l ts) :
    mapOpt f l = some ts := by
  induction h with
  | nil => rfl
  | cons ha _ ih => rw [mapOpt, ha, ih]

theorem splitSp_cons_space (l : List Char) :
    splitSp (' ' :: l) = splitSp l := by
  simp [splitSp, splitSpAux]

/-- Inserting a whitespace-delimited token made solely of filter
characters into a sentence leaves the normalised word sequence
unchanged. -/
theorem tws_splice (w l₁ l₂ : List Char)
    (hf : ∀ c ∈ w, c ∈ keras_filters) :
    text_to_word_sequence (l₁ ++ ' ' :: (w ++ ' ' :: l₂)) =
      text_to_word_sequence (l₁ ++ ' ' :: l₂) := by
  rw [text_to_word_sequence_eq, text_to_word_sequence_eq]
  simp only [List.map_append, List.map_cons, normChar_space]
  rw [splitSp_space_append, splitSp_space_append, splitSp_space_append]
  have hW : splitSp (w.map normChar) = [] := by
    refine splitSp_spaces _ ?_
    intro c hc
    obtain ⟨d, hd, rfl⟩ := List.mem_map.1 hc
    exact normChar_of_filter d (hf d hd)
  rw [hW]
  simp

/-- A non-empty token made solely of filter characters never receives a
vocabulary entry. -/
theorem lookupW_punct_none (texts : List (List Char)) {w : List Char}
    (hw : w ≠ []) (hf : ∀ c ∈ w, c ∈ keras_filters) :
    lookupW w (word_index texts) = none := by
  rw [lookupW_eq_none]
  intro hmem
  have hstream := word_index_keys_mem_stream hmem
  obtain ⟨_, hch⟩ := tokenStream_sound hstream
  obtain ⟨c, hc⟩ := List.exists_mem_of_ne_nil w hw
  exact (hch c hc).2 (hf c hc)

/-! ### Padding: batch-level lemmas -/

theorem pad_sequences_post_all_le (xs : List (List Nat)) (m : Nat)
    (h : ∀ s ∈ xs, s.length ≤ m) :
    pad_sequences_post xs m =
      some (xs.map (fun s => s ++ List.replicate (m - s.length) 0)) :=
  mapOpt_eq_some_map _ _ xs (fun s hs => padRow_of_le (h s hs))

theorem pad_none_eq {xs : List (List Nat)} (hx : xs ≠ []) :
    pad xs none = some (xs.map (fun s =>
      s ++ List.replicate (listMax (xs.map List.length) - s.length) 0)) := by
  rw [pad, if_neg hx]
  exact pad_sequences_post_all_le xs _
    (fun s hs => listMax_ge (List.mem_map.2 ⟨s, hs, rfl⟩))

theorem pad_sequences_post_shape {xs : List (List Nat)} {m : Nat}
    {rows : List (List Nat)} (h : pad_sequences_post xs m = some rows) :
    rows.length = xs.length ∧
      ∀ (j : Nat) (s r : List Nat), xs[j]? = some s → rows[j]? = some r →
        r.length = m ∧ ∀ k, min s.length m ≤ k → k < m → r.getD k 1 = 0 := by
  obtain ⟨hlen, hpt⟩ := mapOpt_some_shape h
  refine ⟨hlen, ?_⟩
  intro j s r hs hr
  obtain ⟨b, hb, hrow⟩ := hpt j s hs
  rw [hr] at hb
  injection hb with hb
  subst hb
  exact padRow_some_shape hrow

/-! ### Claim theorems -/

/-- Claim C2 (counterexample). The claim says the vocabulary size equals the
number of distinct whitespace-delimited tokens of the corpus.  For the
corpus `["a ."]` there are two distinct whitespace-delimited tokens
(`"a"` and `"."`), but the vocabulary built by `tokenize` has exactly one
entry: the `"."` token is removed by the tokenizer's punctuation filter. -/
theorem claim2_counterexample :
    ((["a .".data].map wsTokens).flatten).dedup.length = 2 ∧
    (word_index ["a .".data]).length = 1 := by decide

/-- Claim C2 (amended). For every corpus, the size of the vocabulary produced
by `tokenize` equals the number of distinct tokens of the *normalised*
token stream (whitespace-split after lowercasing and removal of filter
characters): `firstOccs` of the stream is duplicate-free, contains
exactly the stream's tokens, and its length is the vocabulary size.
(Id assignment is a pure function of the corpus in this embedding, so it
is identical across repeated runs.) -/
theorem claim2_vocab_size_distinct_normalized (texts : List (List Char)) :
    (word_index texts).length = (firstOccs (tokenStream texts)).length ∧
    (firstOccs (tokenStream texts)).Nodup ∧
    (∀ w, w ∈ firstOccs (tokenStream texts) ↔ w ∈ tokenStream texts) := by
  refine ⟨?_, firstOccs_nodup _, fun w => firstOccs_mem _ w⟩
  rw [word_index, List.length_map, List.enumFrom_length, List.length_map,
    (sortByCountDesc_perm (word_counts texts)).length_eq, word_counts_eq,
    List.length_map]

/-- Claim C3 (counterexample). The claim says encoding a sentence containing
a token absent from the vocabulary fails with an `UnknownTokenError`.
With the vocabulary built from `["a"]`, the token `"b"` is absent, yet
encoding `"a b"` succeeds and returns `[1]`: the unknown token is
silently dropped, no error is raised. -/
theorem claim3_counterexample :
    lookupW "b".data (word_index ["a".data]) = none ∧
    texts_to_sequences_one (word_index ["a".data]) "a b".data = [1] := by
  decide

/-- Claim C3 (amended). For every vocabulary and sentence, encoding never
fails: it keeps exactly the normalised tokens that are in the vocabulary,
in order, each mapped to its id, and silently drops the tokens that are
absent (it does not map them to pad id 0 or any other id). -/
theorem claim3_encode_drops_unknown (wi : List (List Char × Nat))
    (t : List Char) :
    texts_to_sequences_one wi t =
      ((text_to_word_sequence t).filter
          (fun w => (lookupW w wi).isSome)).map
        (fun w => (lookupW w wi).getD 0) :=
  texts_to_sequences_one_eq wi t

/-- Claim C4 (counterexample). The claim says `pad` fails with a
`SequenceTooLongError` when a row is longer than the explicitly supplied
length and never silently truncates.  Padding `[[1,2,3]]` to length 2
succeeds and returns `[[2,3]]`: the row is silently truncated (keeping
its last two elements, the Keras default `pre-truncation`). -/
theorem claim4_counterexample :
    pad [[1, 2, 3]] (some 2) = some [[2, 3]] := by decide

/-- Claim C4 (amended). For every batch and every explicitly supplied length
`l ≥ 1`, `pad` always succeeds: each row longer than `l` is silently
truncated to its last `l` elements (`pre-truncation`), and each row of
length at most `l` is right-padded with zeros; no error is raised. -/
theorem claim4_pad_truncates (x : List (List Nat)) (l : Nat) (hl : 1 ≤ l) :
    pad x (some l) =
      some (x.map (fun s => s.drop (s.length - l) ++
        List.replicate (l - min s.length l) 0)) := by
  show pad_sequences_post x l = _
  exact mapOpt_eq_some_map _ _ x (fun s _ => padRow_pos hl s)

/-- Claim C4 (witness). -/
theorem claim4_witness :
    1 ≤ 2 ∧
    pad [[1, 2, 3], [9]] (some 2) =
      some ([[1, 2, 3], [9]].map (fun s => s.drop (s.length - 2) ++
        List.replicate (2 - min s.length 2) 0)) :=
  ⟨by decide, claim4_pad_truncates [[1, 2, 3], [9]] 2 (by decide)⟩

/-- Claim C5. For every non-empty batch, `pad` with length omitted uses the
maximum row length of the batch as the target length (the target bounds
every row length and is attained), and every output row equals the
corresponding input row followed by `length − len(row)` zeros appended at
the end; in particular padding `[1,2,3,4,5,6,1,7,8]` to length 12 yields
`[1,2,3,4,5,6,1,7,8,0,0,0]`. -/
theorem claim5_pad_post (x : List (List Nat)) (hx : x ≠ []) :
    pad x none = some (x.map (fun s =>
        s ++ List.replicate (listMax (x.map List.length) - s.length) 0)) ∧
    (∀ s ∈ x, s.length ≤ listMax (x.map List.length)) ∧
    listMax (x.map List.length) ∈ x.map List.length ∧
    pad [[1, 2, 3, 4, 5, 6, 1, 7, 8]] (some 12) =
      some [[1, 2, 3, 4, 5, 6, 1, 7, 8, 0, 0, 0]] := by
  refine ⟨pad_none_eq hx, ?_, ?_, by decide⟩
  · intro s hs
    exact listMax_ge (List.mem_map.2 ⟨s, hs, rfl⟩)
  · refine listMax_mem ?_
    intro hh
    exact hx (List.map_eq_nil_iff.1 hh)

/-- Claim C5 (witness). -/
theorem claim5_witness :
    ([[1], [2, 3]] : List (List Nat)) ≠ [] ∧
    pad [[1], [2, 3]] none = some ([[1], [2, 3]].map (fun s =>
      s ++ List.replicate (listMax ([[1], [2, 3]].map List.length) -
        s.length) 0)) ∧
    listMax ([[1], [2, 3]].map List.length) ∈
      [[1], [2, 3]].map List.length :=
  ⟨by decide, (claim5_pad_post [[1], [2, 3]] (by decide)).1,
    (claim5_pad_post [[1], [2, 3]] (by decide)).2.2.1⟩

/-- Claim C7 (counterexample). The claim says `decode(encode(S)) = S` for
every sentence whose whitespace tokens all appeared in the training
corpus.  For the corpus `["a ."]` and the sentence `"a ."` itself (so
every token of `S` trivially appeared), decoding the encoding yields
`"a"`, not `"a ."`: the `"."` token is removed by the punctuation filter
and never receives an id. -/
theorem claim7_counterexample :
    wsTokens "a .".data = (["a .".data].map wsTokens).flatten ∧
    decode_ids (word_index ["a .".data])
        (texts_to_sequences_one (word_index ["a .".data]) "a .".data) =
      some "a".data ∧
    "a".data ≠ "a .".data := by decide

/-- Claim C7 (amended). Decoding inverts encoding for every sentence that is
the single-space join of non-empty tokens which are unchanged by the
tokenizer's normalisation (no filter characters, no spaces, already
lowercase) and are all present in the vocabulary. -/
theorem claim7_roundtrip (texts : List (List Char)) (ws : List (List Char))
    (h : ∀ w ∈ ws, w ≠ [] ∧
      (∀ c ∈ w, c ∉ keras_filters ∧ c ≠ ' ' ∧ c.toLower = c) ∧
      (lookupW w (word_index texts)).isSome) :
    decode_ids (word_index texts)
        (texts_to_sequences_one (word_index texts) (joinSp ws)) =
      some (joinSp ws) := by
  have hn : ∀ w ∈ ws, w ≠ [] ∧ ∀ c ∈ w, c ≠ ' ' ∧ normChar c = c := by
    intro w hw
    refine ⟨(h w hw).1, fun c hc => ?_⟩
    obtain ⟨hc1, hc2, hc3⟩ := (h w hw).2.1 c hc
    exact ⟨hc2, normChar_fixed hc1 hc3⟩
  rw [texts_to_sequences_one, text_to_word_sequence_join ws hn, decode_ids,
    decode_encode_core (word_index texts) (word_index_ids_nodup texts)
      (fun u j hj => lookupW_word_index_pos hj) ws
      (fun u hu => (h u hu).2.2)]
  rfl

/-- Claim C7 (witness). -/
theorem claim7_witness :
    (∀ w ∈ (["bonjour".data] : List (List Char)), w ≠ [] ∧
      (∀ c ∈ w, c ∉ keras_filters ∧ c ≠ ' ' ∧ c.toLower = c) ∧
      (lookupW w (word_index ["bonjour".data])).isSome) ∧
    decode_ids (word_index ["bonjour".data])
        (texts_to_sequences_one (word_index ["bonjour".data])
          (joinSp ["bonjour".data])) =
      some (joinSp ["bonjour".data]) :=
  ⟨by decide,
    claim7_roundtrip ["bonjour".data] ["bonjour".data] (by decide)⟩

/-- Claim C8 (counterexample). The claim says corpora with unequal line
counts are rejected before padding.  `preprocess` on a one-sentence
source corpus and a two-sentence target corpus succeeds (no rejection
takes place anywhere) and returns a source matrix with 1 row and a
target matrix with 2 rows. -/
theorem claim8_counterexample :
    (preprocess ["a".data] ["b".data, "c".data]).isSome = true ∧
    (preprocess ["a".data] ["b".data, "c".data]).map
        (fun r => (r.1.length, r.2.1.length)) = some (1, 2) := by decide

/-- Claim C8 (amended). For all non-empty corpora, `preprocess` succeeds and
yields a source matrix with `len(source)` rows and a target matrix with
`len(target)` rows (so equal-length corpora give `N` rows on both
sides); it performs no alignment check and never rejects unequal line
counts. -/
theorem claim8_preprocess_rows (x y : List (List Char)) (hx : x ≠ [])
    (hy : y ≠ []) :
    ∃ mx my tx ty, preprocess x y = some (mx, my, tx, ty) ∧
      mx.length = x.length ∧ my.length = y.length := by
  have hx1 : (tokenize x).1 ≠ [] := by
    rw [tokenize]
    intro hh
    exact hx (List.map_eq_nil_iff.1 hh)
  have hy1 : (tokenize y).1 ≠ [] := by
    rw [tokenize]
    intro hh
    exact hy (List.map_eq_nil_iff.1 hh)
  have hpx := pad_none_eq hx1
  have hpy := pad_none_eq hy1
  have hpre : preprocess x y = some
      ((tokenize x).1.map (fun s => s ++ List.replicate
          (listMax ((tokenize x).1.map List.length) - s.length) 0),
       (((tokenize y).1.map (fun s => s ++ List.replicate
          (listMax ((tokenize y).1.map List.length) - s.length) 0)).map
         (fun r => r.map (fun n => [n]))),
       (tokenize x).2, (tokenize y).2) := by
    rw [preprocess, hpx, hpy]
  refine ⟨_, _, _, _, hpre, ?_, ?_⟩
  · simp [tokenize]
  · simp [tokenize]

/-- Claim C8 (witness). -/
theorem claim8_witness :
    (["a".data] : List (List Char)) ≠ [] ∧
    (["b".data] : List (List Char)) ≠ [] ∧
    ∃ mx my tx ty,
      preprocess ["a".data] ["b".data] = some (mx, my, tx, ty) ∧
        mx.length = (["a".data] : List (List Char)).length ∧
        my.length = (["b".data] : List (List Char)).length :=
  ⟨by decide, by decide,
    claim8_preprocess_rows ["a".data] ["b".data] (by decide) (by decide)⟩

/-- Claim C9. The vocabulary never assigns id 0 (every assigned id is at
least 1), and in every padded batch — with the length supplied or
computed as the batch maximum — every row has length exactly the target
length and every padded position (position at or beyond the input row's
contribution) holds id 0. -/
theorem claim9_reserved_zero_and_row_shape (texts : List (List Char))
    (w : List Char) (i : Nat)
    (hwi : lookupW w (word_index texts) = some i)
    (x : List (List Nat)) (l : Nat) (rows : List (List Nat))
    (hsome : pad x (some l) = some rows)
    (x2 : List (List Nat)) (rows2 : List (List Nat))
    (hnone : pad x2 none = some rows2) :
    1 ≤ i ∧
    (rows.length = x.length ∧
      ∀ (j : Nat) (s r : List Nat), x[j]? = some s → rows[j]? = some r →
        r.length = l ∧ ∀ k, min s.length l ≤ k → k < l → r.getD k 1 = 0) ∧
    (rows2.length = x2.length ∧
      ∀ (j : Nat) (s r : List Nat), x2[j]? = some s → rows2[j]? = some r →
        r.length = listMax (x2.map List.length) ∧
        ∀ k, min s.length (listMax (x2.map List.length)) ≤ k →
          k < listMax (x2.map List.length) → r.getD k 1 = 0) := by
  refine ⟨lookupW_word_index_pos hwi, pad_sequences_post_shape hsome, ?_⟩
  rw [pad] at hnone
  by_cases hx2 : x2 = []
  · rw [if_pos hx2] at hnone
    cases hnone
  · rw [if_neg hx2] at hnone
    exact pad_sequences_post_shape hnone

/-- Claim C9 (witness). -/
theorem claim9_witness :
    (lookupW "a".data (word_index ["a".data]) = some 1 ∧
      pad [[1, 2]] (some 3) = some [[1, 2, 0]] ∧
      pad [[5], [7, 8]] none = some [[5, 0], [7, 8]]) ∧
    1 ≤ 1 ∧
    ([[1, 2, 0]] : List (List Nat)).length = 1 ∧
    ([1, 2, 0] : List Nat).length = 3 ∧
    ([1, 2, 0] : List Nat).getD 2 1 = 0 ∧
    ([5, 0] : List Nat).getD 1 1 = 0 := by
  have h9 := claim9_reserved_zero_and_row_shape ["a".data] "a".data 1
    (by decide) [[1, 2]] 3 [[1, 2, 0]] (by decide) [[5], [7, 8]]
    [[5, 0], [7, 8]] (by decide)
  refine ⟨⟨by decide, by decide, by decide⟩, h9.1, h9.2.1.1, ?_, ?_, ?_⟩
  · exact (h9.2.1.2 0 [1, 2] [1, 2, 0] (by decide) (by decide)).1
  · exact (h9.2.1.2 0 [1, 2] [1, 2, 0] (by decide) (by decide)).2 2
      (by decide) (by decide)
  · exact (h9.2.2.2 0 [5] [5, 0] (by decide) (by decide)).2 1
      (by decide) (by decide)

/-- Claim C10. Relative to the tokenizer's own punctuation set (the Keras
default filter characters, which include `.` and `,`): encoding is
invariant under lowercasing the sentence, and a whitespace-delimited
token consisting solely of filter characters contributes no id to any
encoded sequence and receives no vocabulary entry. -/
theorem claim10_case_punct_invariance (texts : List (List Char))
    (w l₁ l₂ t : List Char) (hw : w ≠ [])
    (hf : ∀ c ∈ w, c ∈ keras_filters) :
    lookupW w (word_index texts) = none ∧
    texts_to_sequences_one (word_index texts)
        (l₁ ++ ' ' :: (w ++ ' ' :: l₂)) =
      texts_to_sequences_one (word_index texts) (l₁ ++ ' ' :: l₂) ∧
    texts_to_sequences_one (word_index texts) (t.map Char.toLower) =
      texts_to_sequences_one (word_index texts) t := by
  refine ⟨lookupW_punct_none texts hw hf, ?_, ?_⟩
  · rw [texts_to_sequences_one, texts_to_sequences_one,
      tws_splice w l₁ l₂ hf]
  · rw [texts_to_sequences_one, texts_to_sequences_one,
      text_to_word_sequence_toLower]

/-- Claim C10 (witness). -/
theorem claim10_witness :
    ((".".data : List Char) ≠ [] ∧ ∀ c ∈ ".".data, c ∈ keras_filters) ∧
    lookupW ".".data (word_index ["the dog".data]) = none ∧
    texts_to_sequences_one (word_index ["the dog".data])
        ("The".data ++ ' ' :: (".".data ++ ' ' :: "dog".data)) =
      texts_to_sequences_one (word_index ["the dog".data])
        ("The".data ++ ' ' :: "dog".data) ∧
    texts_to_sequences_one (word_index ["the dog".data])
        ("The DOG".data.map Char.toLower) =
      texts_to_sequences_one (word_index ["the dog".data]) "The DOG".data :=
  ⟨by decide,
    (claim10_case_punct_invariance ["the dog".data] ".".data "The".data
      "dog".data "The DOG".data (by decide) (by decide)).1,
    (claim10_case_punct_invariance ["the dog".data] ".".data "The".data
      "dog".data "The DOG".data (by decide) (by decide)).2.1,
    (claim10_case_punct_invariance ["the dog".data] ".".data "The".data
      "dog".data "The DOG".data (by decide) (by decide)).2.2⟩

/-- Claim C6. The decoder selects at each position the index of the first
occurrence of the largest probability (so ties go to the lowest index),
maps index 0 to the literal `"<PAD>"` marker and other indices through
the id→token table, and joins the tokens with single spaces in position
order without trimming trailing pad markers; in particular, probability
vectors with arg-max indices `[1, 2, 0, 0]` against the vocabulary
`{1 ↦ "bonjour", 2 ↦ "monde"}` decode to `"bonjour monde <PAD> <PAD>"`. -/
theorem claim6_decoder (v : List ℚ) (hv : v ≠ [])
    (logits : List (List ℚ)) (wi : List (List Char × Nat))
    (ts : List (List Char))
    (hts : List.Forall₂
      (fun g t => index_to_words wi (argmaxIdx g) = some t) logits ts) :
    (argmaxIdx v < v.length ∧
      (∀ k, k < v.length → v.getD k 0 ≤ v.getD (argmaxIdx v) 0) ∧
      (∀ k, k < argmaxIdx v → v.getD k 0 < v.getD (argmaxIdx v) 0)) ∧
    index_to_words wi 0 = some padTok ∧
    logits_to_text logits wi = some (joinSp ts) ∧
    logits_to_text
        [[mkRat 1 10, mkRat 7 10, mkRat 2 10],
          [mkRat 1 10, mkRat 2 10, mkRat 7 10],
          [mkRat 5 10, mkRat 3 10, mkRat 2 10],
          [mkRat 4 10, mkRat 4 10, mkRat 2 10]]
        [("bonjour".data, 1), ("monde".data, 2)] =
      some "bonjour monde <PAD> <PAD>".data := by
  refine ⟨argmaxIdx_spec v hv, ?_, ?_, by decide⟩
  · rw [index_to_words, if_pos rfl]
  · rw [logits_to_text,
      mapOpt_forall₂ (List.forall₂_map_left_iff.2 hts)]
    rfl

/-- Claim C6 (witness). -/
theorem claim6_witness :
    (([(1 : ℚ), 2] : List ℚ) ≠ []) ∧
    List.Forall₂
      (fun (g : List ℚ) (t : List Char) =>
        index_to_words [("bonjour".data, 1)] (argmaxIdx g) = some t)
      [[mkRat 1 10, mkRat 7 10]] ["bonjour".data] ∧
    argmaxIdx [(1 : ℚ), 2] < ([(1 : ℚ), 2] : List ℚ).length ∧
    logits_to_text [[mkRat 1 10, mkRat 7 10]] [("bonjour".data, 1)] =
      some (joinSp ["bonjour".data]) := by
  have h6 := claim6_decoder [(1 : ℚ), 2] (by decide)
    [[mkRat 1 10, mkRat 7 10]] [("bonjour".data, 1)] ["bonjour".data]
    (List.Forall₂.cons (by decide) List.Forall₂.nil)
  exact ⟨by decide, List.Forall₂.cons (by decide) List.Forall₂.nil,
    h6.1.1, h6.2.2.1⟩

/-- Claim C1 (counterexample). The claim says ids are assigned to
whitespace-delimited tokens in first-seen order and that for the fox
corpus the trailing `"."` token gets id 9.  In fact the `"."` token is
removed by the tokenizer's punctuation filter and receives no id at all:
the vocabulary has 8 entries, the encode of the sentence is exactly
`[1,2,3,4,5,6,1,7,8]` with nothing appended.  Moreover id order is not
first-seen order in general: on the corpus `["a b b"]` the token `"b"`
(seen second but more frequent) receives id 1 and `"a"` receives id 2. -/
theorem claim1_counterexample :
    texts_to_sequences_one (word_index foxCorpus)
        "The quick brown fox jumps over the lazy dog .".data =
      [1, 2, 3, 4, 5, 6, 1, 7, 8] ∧
    lookupW ".".data (word_index foxCorpus) = none ∧
    (word_index foxCorpus).length = 8 ∧
    word_index ["a b b".data] = [("b".data, 1), ("a".data, 2)] := by decide

/-- Claim C1 (amended). The vocabulary assigns the ids 1, 2, 3, … along its
entry list; a token with strictly larger stream count gets a strictly
smaller id, and between tokens of equal count the one whose first
occurrence in the normalised token stream comes earlier gets the smaller
id (Python's stable descending sort by count).  Tokens are the
whitespace-delimited tokens of the corpus after lowercasing and removal
of filter characters; duplicates reuse the existing id (they are counted,
not re-inserted).  For the single-sentence fox corpus the vocabulary is
`the↦1, quick↦2, brown↦3, fox↦4, jumps↦5, over↦6, lazy↦7, dog↦8` and the
encode of the sentence is `[1,2,3,4,5,6,1,7,8]` (length 9); `"."` is
filtered out and receives no id. -/
theorem claim1_tokenizer_ids (texts : List (List Char))
    (w1 w2 : List Char) (i1 i2 : Nat)
    (h1 : lookupW w1 (word_index texts) = some i1)
    (h2 : lookupW w2 (word_index texts) = some i2) :
    (word_index texts).map Prod.snd =
      List.range' 1 (word_index texts).length ∧
    ((tokenStream texts).count w2 < (tokenStream texts).count w1 →
      i1 < i2) ∧
    ((tokenStream texts).count w1 = (tokenStream texts).count w2 →
      idxOf w1 (tokenStream texts) < idxOf w2 (tokenStream texts) →
      i1 < i2) ∧
    (word_index foxCorpus =
      [("the".data, 1), ("quick".data, 2), ("brown".data, 3),
        ("fox".data, 4), ("jumps".data, 5), ("over".data, 6),
        ("lazy".data, 7), ("dog".data, 8)] ∧
      texts_to_sequences_one (word_index foxCorpus)
          "The quick brown fox jumps over the lazy dog .".data =
        [1, 2, 3, 4, 5, 6, 1, 7, 8]) := by
  have hlen : (word_index texts).length =
      (sortByCountDesc (word_counts texts)).length := by
    rw [word_index, List.length_map, List.enumFrom_length, List.length_map]
  obtain ⟨hi1, hk1⟩ := (lookupW_word_index texts w1 i1).1 h1
  obtain ⟨hi2, hk2⟩ := (lookupW_word_index texts w2 i2).1 h2
  rw [List.getElem?_map] at hk1 hk2
  obtain ⟨e1, he1, he1f⟩ := Option.map_eq_some'.1 hk1
  obtain ⟨e2, he2, he2f⟩ := Option.map_eq_some'.1 hk2
  have hc1 : e1.2 = (tokenStream texts).count w1 := by
    have hcc := mem_sortByCountDesc_count (List.getElem?_mem he1)
    rwa [he1f] at hcc
  have hc2 : e2.2 = (tokenStream texts).count w2 := by
    have hcc := mem_sortByCountDesc_count (List.getElem?_mem he2)
    rwa [he2f] at hcc
  obtain ⟨hb1, hv1⟩ := List.getElem?_eq_some.1 he1
  obtain ⟨hb2, hv2⟩ := List.getElem?_eq_some.1 he2
  refine ⟨by rw [word_index_ids, hlen], ?_, ?_, by decide, by decide⟩
  · intro hcc
    by_contra hnot
    rcases Nat.eq_or_lt_of_le (by omega : i2 ≤ i1) with heq | hlt
    · rw [← heq] at he1
      rw [he2] at he1
      injection he1 with he1
      have heq2 : e1.2 = e2.2 := by rw [he1]
      omega
    · have hp : i2 - 1 < i1 - 1 := by omega
      have hpair := List.pairwise_iff_get.1
        (sortByCountDesc_pairwise (word_counts texts))
      have hord := hpair ⟨i2 - 1, hb2⟩ ⟨i1 - 1, hb1⟩ hp
      rw [List.get_eq_getElem, List.get_eq_getElem, hv1, hv2] at hord
      omega
  · intro hceq hidx
    by_contra hnot
    rcases Nat.eq_or_lt_of_le (by omega : i2 ≤ i1) with heq | hlt
    · rw [← heq] at he1
      rw [he2] at he1
      injection he1 with he1
      have hw : w1 = w2 := by rw [← he1f, ← he2f, he1]
      rw [hw] at hidx
      exact Nat.lt_irrefl _ hidx
    · have hkeys : ((sortByCountDesc (word_counts texts)).map
          Prod.fst).Nodup := by
        have hperm := (sortByCountDesc_perm (word_counts texts)).map Prod.fst
        rw [hperm.nodup_iff, word_counts_keys]
        exact firstOccs_nodup _
      have hsnodup : (sortByCountDesc (word_counts texts)).Nodup :=
        List.Nodup.of_map Prod.fst hkeys
      have hwcnodup : (word_counts texts).Nodup := by
        refine List.Nodup.of_map Prod.fst ?_
        rw [word_counts_keys]
        exact firstOccs_nodup _
      have hidx1 : idxOf e1 (sortByCountDesc (word_counts texts)) =
          i1 - 1 := idxOf_of_getElem? hsnodup he1
      have hidx2 : idxOf e2 (sortByCountDesc (word_counts texts)) =
          i2 - 1 := idxOf_of_getElem? hsnodup he2
      have hm1 : e1 ∈ sortByCountDesc (word_counts texts) :=
        List.getElem?_mem he1
      have hm2 : e2 ∈ sortByCountDesc (word_counts texts) :=
        List.getElem?_mem he2
      have hf1 : e1 ∈ (sortByCountDesc (word_counts texts)).filter
          (fun q => q.2 == (tokenStream texts).count w1) :=
        List.mem_filter.2 ⟨hm1, by simp [hc1]⟩
      have hf2 : e2 ∈ (sortByCountDesc (word_counts texts)).filter
          (fun q => q.2 == (tokenStream texts).count w1) :=
        List.mem_filter.2 ⟨hm2, by simp [hc2, hceq]⟩
      have hflt : idxOf e2 ((sortByCountDesc (word_counts texts)).filter
            (fun q => q.2 == (tokenStream texts).count w1)) <
          idxOf e1 ((sortByCountDesc (word_counts texts)).filter
            (fun q => q.2 == (tokenStream texts).count w1)) := by
        refine filter_idxOf_lt hsnodup _ hf2 hf1 ?_
        omega
      rw [sortByCountDesc_filter] at hflt hf1 hf2
      have hwclt : idxOf e2 (word_counts texts) <
          idxOf e1 (word_counts texts) :=
        sublist_idxOf_lt (List.filter_sublist _) hwcnodup hf2 hf1 hflt
      have hinj : ∀ a b : List Char,
          (a, (tokenStream texts).count a) =
            (b, (tokenStream texts).count b) → a = b := by
        intro a b hab
        simpa using congrArg Prod.fst hab
      have he1p : e1 = (w1, (tokenStream texts).count w1) := by
        rw [← hc1, ← he1f]
      have he2p : e2 = (w2, (tokenStream texts).count w2) := by
        rw [← hc2, ← he2f]
      have hfo_lt : idxOf w2 (firstOccs (tokenStream texts)) <
          idxOf w1 (firstOccs (tokenStream texts)) := by
        have hq1 : idxOf e1 (word_counts texts) =
            idxOf w1 (firstOccs (tokenStream texts)) := by
          rw [word_counts_eq, he1p]
          exact idxOf_map hinj _ w1
        have hq2 : idxOf e2 (word_counts texts) =
            idxOf w2 (firstOccs (tokenStream texts)) := by
          rw [word_counts_eq, he2p]
          exact idxOf_map hinj _ w2
        omega
      have hw1fo : w1 ∈ firstOccs (tokenStream texts) := by
        have hmm := (sortByCountDesc_perm (word_counts texts)).mem_iff.1 hm1
        rw [word_counts_eq] at hmm
        obtain ⟨u, hu, hue⟩ := List.mem_map.1 hmm
        have hu1 : u = e1.1 := congrArg Prod.fst hue
        exact (hu1.trans he1f) ▸ hu
      have hw2fo : w2 ∈ firstOccs (tokenStream texts) := by
        have hmm := (sortByCountDesc_perm (word_counts texts)).mem_iff.1 hm2
        rw [word_counts_eq] at hmm
        obtain ⟨u, hu, hue⟩ := List.mem_map.1 hmm
        have hu1 : u = e2.1 := congrArg Prod.fst hue
        exact (hu1.trans he2f) ▸ hu
      have hb1f : idxOf w1 (firstOccs (tokenStream texts)) <
          (firstOccs (tokenStream texts)).length := idxOf_lt_length hw1fo
      have hb2f : idxOf w2 (firstOccs (tokenStream texts)) <
          (firstOccs (tokenStream texts)).length := idxOf_lt_length hw2fo
      have hpair2 := List.pairwise_iff_get.1
        (firstOccs_pairwise (tokenStream texts))
      have hres := hpair2 ⟨_, hb2f⟩ ⟨_, hb1f⟩ hfo_lt
      have hg1 : (firstOccs (tokenStream texts)).get ⟨_, hb1f⟩ = w1 := by
        have hgg := getElem?_idxOf hw1fo
        rw [List.get_eq_getElem]
        obtain ⟨hh, hval⟩ := List.getElem?_eq_some.1 hgg
        exact hval
      have hg2 : (firstOccs (tokenStream texts)).get ⟨_, hb2f⟩ = w2 := by
        have hgg := getElem?_idxOf hw2fo
        rw [List.get_eq_getElem]
        obtain ⟨hh, hval⟩ := List.getElem?_eq_some.1 hgg
        exact hval
      rw [hg1, hg2] at hres
      omega

/-- Claim C1 (witness). -/
theorem claim1_witness :
    (lookupW "the".data (word_index foxCorpus) = some 1 ∧
      lookupW "quick".data (word_index foxCorpus) = some 2) ∧
    ((word_index foxCorpus).map Prod.snd =
      List.range' 1 (word_index foxCorpus).length) ∧
    ((tokenStream foxCorpus).count "quick".data <
        (tokenStream foxCorpus).count "the".data → 1 < 2) ∧
    texts_to_sequences_one (word_index foxCorpus)
        "The quick brown fox jumps over the lazy dog .".data =
      [1, 2, 3, 4, 5, 6, 1, 7, 8] := by
  have hc := claim1_tokenizer_ids foxCorpus "the".data "quick".data 1 2
    (by decide) (by decide)
  exact ⟨⟨by decide, by decide⟩, hc.1, hc.2.1, hc.2.2.2.2⟩

end EngFrench
